import Mathlib

/-!
# Verification of the BlockChain_Backup hash-chained block store

Shallow embedding of the repository's two source variants
(`BlockChainBackup.py` and `main.py`): the `Block` data model, the generic
chain store (`construct_block`, `save_block`, `load_chain`,
`load_adjacent_blocks`, `verify_chain_integrity`, `check_validity`,
`proof_of_work`, `verifying_proof`) and the three specializations
(`FileBlockchain`, `AccessBlockchain`, `IndexBlockchain`).

Python strings are embedded as `List Char`, byte strings as `List Nat`
(each entry `< 256`), `hashlib.sha256` as an executable SHA-256 over those
byte lists, and the storage directory as an association list from file
name to the pickled block it holds.
-/

/-- Python `str` values are embedded as lists of characters. -/
abbrev Str := List Char

/-- Decimal digit character, `digitCh d` for `d < 10`. -/
def digitCh (d : Nat) : Char := Char.ofNat (48 + d)

/-- Decimal digits of a natural number, most significant first;
`decimalAux f 0 = []`.  The first argument is fuel (any `f ≥ n` is
enough), keeping the recursion structural so that the kernel can
evaluate it. -/
def decimalAux : Nat → Nat → List Char
  | 0, _ => []
  | _, 0 => []
  | f+1, n => decimalAux f (n / 10) ++ [digitCh (n % 10)]

/-- Embedding of Python `str(n)` for a non-negative integer `n`. -/
def decimalStr (n : Nat) : Str := if n = 0 then ['0'] else decimalAux n n

/-- Embedding of Python `str(i)` for an arbitrary integer `i`. -/
def intStr (i : Int) : Str :=
  if i < 0 then '-' :: decimalStr i.natAbs else decimalStr i.natAbs

/-- Embedding of Python `s.encode()` for ASCII strings: UTF-8 code units. -/
def strBytes (s : Str) : List Nat := s.map Char.toNat

/-- Embedding of Python `int(s)` on a digit string (fold of decimal digits). -/
def parseNat (s : Str) : Nat := s.foldl (fun a c => a * 10 + (c.toNat - 48)) 0

/-! ## SHA-256 (the `hashlib.sha256(...).hexdigest()` primitive)

Machine words are `Nat` reduced mod `2^32`.  The round constants are not
hard-coded: they are derived, as in the SHA-256 standard, from the
fractional parts of the square roots (initial hash) and cube roots (round
constants) of the first primes.  Known test vectors are proved below. -/

def M32 : Nat := 4294967296

def MASK32 : Nat := 4294967295

/-- 32-bit right rotation. -/
def rotr (x n : Nat) : Nat := ((x >>> n) ||| (x <<< (32 - n))) % M32

/-- 32-bit complement (argument assumed `< 2^32`). -/
def not32 (x : Nat) : Nat := MASK32 - x

def bsig0 (x : Nat) : Nat := rotr x 2 ^^^ rotr x 13 ^^^ rotr x 22

def bsig1 (x : Nat) : Nat := rotr x 6 ^^^ rotr x 11 ^^^ rotr x 25

def ssig0 (x : Nat) : Nat := rotr x 7 ^^^ rotr x 18 ^^^ (x >>> 3)

def ssig1 (x : Nat) : Nat := rotr x 17 ^^^ rotr x 19 ^^^ (x >>> 10)

/-- Fuelled binary search for the integer cube root. -/
def icbrtGo (n : Nat) : Nat → Nat → Nat → Nat
  | 0, lo, _ => lo
  | f+1, lo, hi =>
    if hi ≤ lo + 1 then lo
    else
      let m := (lo + hi) / 2
      if m * m * m ≤ n then icbrtGo n f m hi else icbrtGo n f lo m

/-- Integer cube root. -/
def icbrt (n : Nat) : Nat := icbrtGo n 200 0 (n + 2)

/-- Fuelled binary search for the integer square root. -/
def isqrtGo (n : Nat) : Nat → Nat → Nat → Nat
  | 0, lo, _ => lo
  | f+1, lo, hi =>
    if hi ≤ lo + 1 then lo
    else
      let m := (lo + hi) / 2
      if m * m ≤ n then isqrtGo n f m hi else isqrtGo n f lo m

/-- Integer square root. -/
def isqrt (n : Nat) : Nat := isqrtGo n 200 0 (n + 2)

/-- The first 64 primes. -/
def primes64 : List Nat :=
  [2, 3, 5, 7, 11, 13, 17, 19, 23, 29, 31, 37, 41, 43, 47, 53,
   59, 61, 67, 71, 73, 79, 83, 89, 97, 101, 103, 107, 109, 113, 127, 131,
   137, 139, 149, 151, 157, 163, 167, 173, 179, 181, 191, 193, 197, 199, 211, 223,
   227, 229, 233, 239, 241, 251, 257, 263, 269, 271, 277, 281, 283, 293, 307, 311]

/-- SHA-256 round constants: fractional cube roots of the first 64 primes. -/
def K256 : List Nat := primes64.map (fun p => icbrt (p * 2 ^ 96) % M32)

/-- SHA-256 initial hash words: fractional square roots of the first 8 primes. -/
def H256 : List Nat := (primes64.take 8).map (fun p => isqrt (p * 2 ^ 64) % M32)

/-- Working state of the SHA-256 compression function. -/
structure H8 where
  a : Nat
  b : Nat
  c : Nat
  d : Nat
  e : Nat
  f : Nat
  g : Nat
  h : Nat

/-- Force a `Nat` to a numeral before continuing.  Purely the identity;
it keeps kernel reduction of the hash iterative instead of building a
deep lazy dependency chain. -/
def seqN (n : Nat) (k : Nat → α) : α :=
  match n with
  | 0 => k 0
  | m+1 => k (m + 1)

/-- Force all eight state words before continuing. -/
def forceH8 (st : H8) (k : H8 → α) : α :=
  seqN st.a fun a => seqN st.b fun b => seqN st.c fun c => seqN st.d fun d =>
  seqN st.e fun e => seqN st.f fun f => seqN st.g fun g => seqN st.h fun h =>
  k ⟨a, b, c, d, e, f, g, h⟩

/-- One SHA-256 round: state times (round constant, schedule word). -/
def sha256Round (st : H8) (kw : Nat × Nat) : H8 :=
  let ch := (st.e &&& st.f) ^^^ (not32 st.e &&& st.g)
  let maj := (st.a &&& st.b) ^^^ (st.a &&& st.c) ^^^ (st.b &&& st.c)
  let t1 := (st.h + bsig1 st.e + ch + kw.1 + kw.2) % M32
  let t2 := (bsig0 st.a + maj) % M32
  ⟨(t1 + t2) % M32, st.a, st.b, st.c, (st.d + t1) % M32, st.e, st.f, st.g⟩

/-- Run the 64 rounds, forcing the state at every step. -/
def sha256Rounds : List (Nat × Nat) → H8 → H8
  | [], st => st
  | kw :: rest, st => forceH8 (sha256Round st kw) (sha256Rounds rest)

/-- Big-endian 32-bit word from four bytes. -/
def wordOf (bs : List Nat) : Nat := bs.foldl (fun a b => a * 256 + b) 0

/-- The sixteen initial schedule words of one 64-byte chunk. -/
def chunkWords (c : List Nat) : List Nat :=
  (List.range 16).map (fun i => wordOf ((c.drop (4 * i)).take 4))

/-- Extend the message schedule, kept most-recent-first: `w[t-2]` is entry
1, `w[t-7]` entry 6, `w[t-15]` entry 14 and `w[t-16]` entry 15. -/
def extendW : Nat → List Nat → List Nat
  | 0, wrev => wrev
  | n+1, wrev =>
    seqN ((ssig1 (wrev.getD 1 0) + wrev.getD 6 0 +
           ssig0 (wrev.getD 14 0) + wrev.getD 15 0) % M32)
      (fun nw => extendW n (nw :: wrev))

/-- Full 64-word message schedule of one chunk. -/
def sched (c : List Nat) : List Nat := (extendW 48 (chunkWords c).reverse).reverse

/-- Compress one 64-byte chunk into the running hash (eight words). -/
def compress (hs : List Nat) (c : List Nat) : List Nat :=
  let g := fun i => hs.getD i 0
  forceH8 ⟨g 0, g 1, g 2, g 3, g 4, g 5, g 6, g 7⟩ fun st0 =>
  let st := sha256Rounds (K256.zip (sched c)) st0
  [(st0.a + st.a) % M32, (st0.b + st.b) % M32, (st0.c + st.c) % M32,
   (st0.d + st.d) % M32, (st0.e + st.e) % M32, (st0.f + st.f) % M32,
   (st0.g + st.g) % M32, (st0.h + st.h) % M32]

/-- Big-endian 64-bit length field, as eight bytes. -/
def be64 (n : Nat) : List Nat := (List.range 8).map (fun k => (n >>> (56 - 8 * k)) % 256)

/-- SHA-256 padding of a byte message. -/
def shaPad (msg : List Nat) : List Nat :=
  msg ++ [128] ++ List.replicate ((119 - msg.length % 64) % 64) 0 ++ be64 (8 * msg.length)

/-- Split a byte list into 64-byte chunks (structural recursion on a fuel
argument, any fuel `≥ l.length` is enough). -/
def chunks64Aux : Nat → List Nat → List (List Nat)
  | 0, _ => []
  | f+1, l => if l = [] then [] else l.take 64 :: chunks64Aux f (l.drop 64)

/-- Split a byte list into 64-byte chunks. -/
def chunks64 (l : List Nat) : List (List Nat) := chunks64Aux l.length l

/-- Hash digit character (lower-case hexadecimal, as Python's `hexdigest`). -/
def hexCh (d : Nat) : Char := if d < 10 then Char.ofNat (48 + d) else Char.ofNat (87 + d)

/-- Lower-case hexadecimal rendering of a 32-bit word (8 characters). -/
def hexWord (w : Nat) : Str := (List.range 8).map (fun k => hexCh ((w >>> (28 - 4 * k)) % 16))

/-- Embedding of `hashlib.sha256(msg).hexdigest()` over a byte message. -/
def sha256hex (msg : List Nat) : Str :=
  ((chunks64 (shaPad msg)).foldl compress H256).foldr (fun w s => hexWord w ++ s) []

/-- `hashlib.sha256(s.encode()).hexdigest()` for an ASCII string `s`. -/
def sha256hexOfStr (s : Str) : Str := sha256hex (strBytes s)

/-! ## Digest and admission (`verifying_proof`, `proof_of_work`)

`Blockchain.verifying_proof` in both source variants is

    guess = f'{last_proof}{proof}'.encode()
    guess_hash = hashlib.sha256(guess).hexdigest()
    return guess_hash[:4] == "0000"

Note the call sites: `proof_of_work` calls `verifying_proof(proof_no,
last_proof)` and `check_validity` calls `verifying_proof(block.proof_no,
prev_block.proof_no)`, so the candidate proof is always passed as the
FIRST argument (the parameter confusingly named `last_proof`). -/

def zeros4 : Str := ['0', '0', '0', '0']

/-- `Blockchain.verifying_proof(last_proof, proof)`. -/
def verifying_proof (last_proof proof : Nat) : Bool :=
  let guess := decimalStr last_proof ++ decimalStr proof
  let guess_hash := sha256hexOfStr guess
  guess_hash.take 4 == zeros4

/-- The admission predicate between a candidate proof and the previous
block's proof, in the argument order the program actually uses at both
call sites: `satisfies_admission candidate prev =
verifying_proof(candidate, prev)`. -/
def satisfies_admission (candidate_proof prev_proof : Nat) : Bool :=
  verifying_proof candidate_proof prev_proof

/-- The admission predicate as the specification words it: the digest of
`prev_proof` rendered first and then `candidate_proof` has an all-zero
leading prefix of 4 hex characters.  (Modelled from the spec, for
comparison with `satisfies_admission` above.) -/
def admission_spec_order (candidate_proof prev_proof : Nat) : Bool :=
  (sha256hexOfStr (decimalStr prev_proof ++ decimalStr candidate_proof)).take 4 == zeros4

/-- The loop of `Blockchain.proof_of_work`, counting up from `n`, with
explicit fuel in place of the unbounded Python `while`. -/
def proofOfWorkAux (last_proof : Nat) : Nat → Nat → Option Nat
  | 0, _ => none
  | f+1, n => if verifying_proof n last_proof then some n else proofOfWorkAux last_proof f (n + 1)

/-- `Blockchain.proof_of_work(last_proof)`: linear search from 0 upward
until `verifying_proof` succeeds; `fuel` bounds the number of candidates
tried (the Python loop is unbounded). -/
def proof_of_work (fuel last_proof : Nat) : Option Nat := proofOfWorkAux last_proof fuel 0

set_option maxRecDepth 6000

/-- SHA-256 test vector: the digest of the empty message. -/
theorem sha256_empty_vector :
    sha256hex [] =
      ('e' :: '3' :: 'b' :: '0' :: 'c' :: '4' :: '4' :: '2' :: '9'
       :: '8' :: 'f' :: 'c' :: '1' :: 'c' :: '1' :: '4' :: '9' ::
       'a' :: 'f' :: 'b' :: 'f' :: '4' :: 'c' :: '8' :: '9' :: '9'
       :: '6' :: 'f' :: 'b' :: '9' :: '2' :: '4' :: '2' :: '7' ::
       'a' :: 'e' :: '4' :: '1' :: 'e' :: '4' :: '6' :: '4' :: '9'
       :: 'b' :: '9' :: '3' :: '4' :: 'c' :: 'a' :: '4' :: '9' ::
       '5' :: '9' :: '9' :: '1' :: 'b' :: '7' :: '8' :: '5' :: '2'
       :: 'b' :: '8' :: '5' :: '5' :: []) := by decide

/-- SHA-256 test vector: the digest of `"abc"`. -/
theorem sha256_abc_vector :
    sha256hex [97, 98, 99] =
      ('b' :: 'a' :: '7' :: '8' :: '1' :: '6' :: 'b' :: 'f' :: '8'
       :: 'f' :: '0' :: '1' :: 'c' :: 'f' :: 'e' :: 'a' :: '4' ::
       '1' :: '4' :: '1' :: '4' :: '0' :: 'd' :: 'e' :: '5' :: 'd'
       :: 'a' :: 'e' :: '2' :: '2' :: '2' :: '3' :: 'b' :: '0' ::
       '0' :: '3' :: '6' :: '1' :: 'a' :: '3' :: '9' :: '6' :: '1'
       :: '7' :: '7' :: 'a' :: '9' :: 'c' :: 'b' :: '4' :: '1' ::
       '0' :: 'f' :: 'f' :: '6' :: '1' :: 'f' :: '2' :: '0' :: '0'
       :: '1' :: '5' :: 'a' :: 'd' :: []) := by decide

/-! ## The `Block` data model and the generic chain store (`Blockchain`)

Stateful Python code is embedded by explicit state passing: a `ChainSt`
carries the in-memory `chain` and `current_data` (the pending buffer),
the `chunk_index` mapping block index to storage-unit name, and the
storage directory `dir` itself as an association list from file name to
the block pickled in that file.  `time.time()` values are supplied by the
caller as a `now : Nat` argument. -/

/-- Python dict lookup on an association list (first matching key). -/
def lookupA [DecidableEq κ] : List (κ × β) → κ → Option β
  | [], _ => none
  | (k', v) :: rest, k => if k' = k then some v else lookupA rest k

/-- Python dict assignment: replace the binding in place, or append it. -/
def updateA [DecidableEq κ] : List (κ × β) → κ → β → List (κ × β)
  | [], k, v => [(k, v)]
  | (k', v') :: rest, k, v =>
    if k' = k then (k, v) :: rest else (k', v') :: updateA rest k v

/-- Python `key in dict`. -/
def containsA [DecidableEq κ] (l : List (κ × β)) (k : κ) : Bool := (lookupA l k).isSome

/-- `Block.__init__(index, proof_no, prev_hash, data, timestamp)`. -/
structure Block (α : Type) where
  index : Int
  proof_no : Nat
  prev_hash : Str
  data : List α
  timestamp : Nat
deriving DecidableEq

/-- `Block.calculate_hash`: SHA-256 of
`"{index}{proof_no}{prev_hash}{data}{timestamp}"`, where `render` stands
for Python's `str()` of the payload list (each specialization supplies
its own rendering below). -/
def calculate_hash (render : List α → Str) (b : Block α) : Str :=
  sha256hexOfStr (intStr b.index ++ decimalStr b.proof_no ++ b.prev_hash ++
    render b.data ++ decimalStr b.timestamp)

/-- The mutable state of a `Blockchain` instance.  `dir` is the contents
of the storage directory `storage_dir`, keyed by the bare storage-unit
name (what `os.listdir(storage_dir)` shows). -/
structure ChainSt (α : Type) where
  chain : List (Block α)
  current_data : List α
  chunk_index : List (Int × Str)
  dir : List (Str × Block α)
  storage_dir : Str
  blockchain_name : Str
deriving DecidableEq

def sepBlockU : Str := ['_', 'b', 'l', 'o', 'c', 'k', '_']

def extPkl : Str := ['.', 'p', 'k', 'l']

/-- The storage-unit name `f'{blockchain_name}_block_{index}.pkl'`. -/
def fileNameFor (name : Str) (i : Int) : Str := name ++ sepBlockU ++ intStr i ++ extPkl

/-- `os.path.join` for a relative right operand. -/
def joinPath (d f : Str) : Str := d ++ '/' :: f

/-- `Blockchain.save_block`: pickle the block into
`os.path.join(storage_dir, f'{name}_block_{index}.pkl')` and record that
unit in `chunk_index`.  The write creates the unit inside `storage_dir`
under its bare name, but `chunk_index` receives the `storage_dir`-JOINED
path (`self.chunk_index[block.index] = block_file` with the joined
`block_file`) — which `load_block` will join with `storage_dir` a second
time. -/
def save_block (b : Block α) (s : ChainSt α) : ChainSt α :=
  let block_file := joinPath s.storage_dir (fileNameFor s.blockchain_name b.index)
  { s with dir := updateA s.dir (fileNameFor s.blockchain_name b.index) b,
           chunk_index := updateA s.chunk_index b.index block_file }

/-- `Blockchain.construct_block(proof_no, prev_hash)`: build the block at
index `len(chain)`, seal the pending buffer into it, clear the buffer,
append and persist. -/
def construct_block (proof_no : Nat) (prev_hash : Str) (now : Nat) (s : ChainSt α) :
    ChainSt α :=
  let block : Block α := ⟨(s.chain.length : Int), proof_no, prev_hash, s.current_data, now⟩
  save_block block { s with chain := s.chain ++ [block], current_data := [] }

def zeroStr : Str := ['0']

/-- A fresh, still-unloaded `Blockchain` state. -/
def emptyChain (sd name : Str) : ChainSt α := ⟨[], [], [], [], sd, name⟩

/-- `Blockchain.construct_genesis`. -/
def construct_genesis (now : Nat) (s : ChainSt α) : ChainSt α :=
  construct_block 0 zeroStr now s

/-- The state of a freshly constructed chain whose storage directory was
empty: `load_chain` found nothing and sealed the genesis block. -/
def genesisChain (sd name : Str) (now : Nat) : ChainSt α :=
  construct_genesis now (emptyChain sd name)

/-- Placeholder block; `chain[-1]` on an empty chain raises in Python and
is only ever taken on non-empty chains here. -/
def defaultBlock : Block α := ⟨0, 0, [], [], 0⟩

/-- `Blockchain.latest_block` (`self.chain[-1]`). -/
def latest_block (s : ChainSt α) : Block α := s.chain.getLastD defaultBlock

/-- `Blockchain.check_validity(block, prev_block)`. -/
def check_validity (render : List α → Str) (block prev_block : Block α) : Bool :=
  if prev_block.index + 1 ≠ block.index then false
  else if calculate_hash render prev_block ≠ block.prev_hash then false
  else if !(verifying_proof block.proof_no prev_block.proof_no) then false
  else true

/-- `Blockchain.load_block(block_file)`: unpickle
`os.path.join(storage_dir, block_file)`.  The open succeeds exactly when
`block_file` is the bare name of a unit inside the storage directory; a
`block_file` that is already `storage_dir`-joined (as `save_block` puts
into `chunk_index`) yields a doubled path that matches no unit, and the
open raises `FileNotFoundError` — modelled as `none`. -/
def load_block (s : ChainSt α) (block_file : Str) : Option (Block α) :=
  lookupA s.dir block_file

/-- Deduplication of the `blocks_to_load` set (keeps first occurrences;
the Python set is unordered, no claim depends on the order). -/
def dedupStr : List Str → List Str
  | [] => []
  | a :: as => a :: (dedupStr as).filter (fun x => decide (x ≠ a))

/-- Read a list of storage units in order; `none` as soon as one open
raises `FileNotFoundError`. -/
def loadAll (s : ChainSt α) : List Str → Option (List (Block α))
  | [] => some []
  | f :: fs =>
    match load_block s f with
    | none => none
    | some b =>
      match loadAll s fs with
      | none => none
      | some bs => some (b :: bs)

/-- `Blockchain.load_adjacent_blocks(block_index)`: the storage units of
the target index and its immediate neighbours, deduplicated, unpickled;
`none` models the `FileNotFoundError` raised when a named unit cannot be
opened. -/
def load_adjacent_blocks (s : ChainSt α) (block_index : Int) : Option (List (Block α)) :=
  let c1 := match lookupA s.chunk_index block_index with
    | some f => [f] | none => []
  let c2 := if block_index > 0 then
      (match lookupA s.chunk_index (block_index - 1) with
        | some f => [f] | none => []) else []
  let c3 := match lookupA s.chunk_index (block_index + 1) with
    | some f => [f] | none => []
  loadAll s (dedupStr (c1 ++ c2 ++ c3))

/-- The dict `{block.index: block for block in loaded_blocks}`. -/
def blocksByIndex (bl : List (Block α)) : List (Int × Block α) :=
  bl.foldl (fun d b => updateA d b.index b) []

/-- `Blockchain.verify_chain_integrity(target_block_index)` of
`BlockChainBackup.py`: the windowed check around one target index;
`none` propagates the `FileNotFoundError` of `load_adjacent_blocks`. -/
def verify_chain_integrity (render : List α → Str) (s : ChainSt α)
    (target_block_index : Int) : Option Bool :=
  match load_adjacent_blocks s target_block_index with
  | none => none
  | some loaded_blocks =>
    let blocks := blocksByIndex loaded_blocks
    match lookupA blocks target_block_index with
    | some target_block =>
      let prevOk := match lookupA blocks (target_block_index - 1) with
        | some prev_block => check_validity render target_block prev_block
        | none => true
      let nextOk := match lookupA blocks (target_block_index + 1) with
        | some next_block => check_validity render next_block target_block
        | none => true
      some (prevOk && nextOk)
    | none => some false

/-- `Blockchain.verify_chain_integrity()` of `main.py`: walk the whole
in-memory chain checking every adjacent pair. -/
def verify_full (render : List α → Str) : List (Block α) → Bool
  | [] => true
  | [_] => true
  | prev :: cur :: rest => check_validity render cur prev && verify_full render (cur :: rest)

/-- One sealing operation as performed by every specialization
(`add_file`, `grant_access`, `update_index`, `add_user`): append one
record to the pending buffer, then
`construct_block(proof_of_work(latest_block.proof_no),
latest_block.calculate_hash)`.  The argument `p` stands for the value
returned by `proof_of_work`; by `proofOfWorkAux_sound` below any such
value satisfies `verifying_proof p (latest_block s).proof_no`. -/
def sealRecord (render : List α → Str) (r : α) (p : Nat) (now : Nat) (s : ChainSt α) :
    ChainSt α :=
  construct_block p (calculate_hash render (latest_block s)) now
    { s with current_data := s.current_data ++ [r] }

/-- The chain states reachable by constructing a chain (genesis) and
performing any sequence of sealing operations, each sealing with a proof
that `proof_of_work` could have returned. -/
inductive Reachable (render : List α → Str) : ChainSt α → Prop where
  | genesis (sd name : Str) (now : Nat) : Reachable render (genesisChain sd name now)
  | step {s : ChainSt α} (r : α) (p now : Nat) (h : Reachable render s)
      (hp : verifying_proof p (latest_block s).proof_no = true) :
      Reachable render (sealRecord render r p now s)

/-! ## Proof-of-work: soundness, termination, minimality -/

/-- Any value returned by the `proof_of_work` loop satisfies the
admission predicate against the proof it searched from. -/
theorem proofOfWorkAux_sound :
    ∀ (fuel start p last : Nat), proofOfWorkAux last fuel start = some p →
      verifying_proof p last = true := by
  intro fuel
  induction fuel with
  | zero => intro start p last h; simp [proofOfWorkAux] at h
  | succ f ih =>
    intro start p last h
    by_cases hv : verifying_proof start last
    · simp [proofOfWorkAux, hv] at h
      rw [← h]; exact hv
    · simp [proofOfWorkAux, hv] at h
      exact ih _ _ _ h

/-- The `proof_of_work` loop, started at `start` with enough fuel to reach
an admissible candidate, returns the least admissible value `≥ start`. -/
theorem proofOfWorkAux_finds_least :
    ∀ (fuel start k last : Nat), k < fuel → verifying_proof (start + k) last = true →
      ∃ p, proofOfWorkAux last fuel start = some p ∧ verifying_proof p last = true ∧
        start ≤ p ∧ ∀ q, start ≤ q → q < p → verifying_proof q last = false := by
  intro fuel
  induction fuel with
  | zero => intro start k last hk _; omega
  | succ f ih =>
    intro start k last hk hadm
    by_cases hv : verifying_proof start last
    · exact ⟨start, by simp [proofOfWorkAux, hv], hv, le_refl _, fun q h1 h2 => by omega⟩
    · have hk0 : k ≠ 0 := by
        intro h0; rw [h0, Nat.add_zero] at hadm
        exact hv (by rw [hadm])
      obtain ⟨k', rfl⟩ : ∃ k', k = k' + 1 := ⟨k - 1, by omega⟩
      have hadm' : verifying_proof ((start + 1) + k') last = true := by
        rw [show (start + 1) + k' = start + (k' + 1) by omega]; exact hadm
      obtain ⟨p, hfind, hp, hge, hmin⟩ := ih (start + 1) k' last (by omega) hadm'
      refine ⟨p, ?_, hp, by omega, ?_⟩
      · simp [proofOfWorkAux, hv]; exact hfind
      · intro q h1 h2
        rcases Nat.eq_or_lt_of_le h1 with h | h
        · rw [← h]; exact Bool.eq_false_iff.mpr hv
        · exact hmin q (by omega) h2

/-- Claim C4: whenever some non-negative integer satisfies the admission
predicate relative to `prev_proof`, the linear search `proof_of_work`
terminates (fuel `n + 1` suffices for an admissible candidate `n`) and
returns the smallest non-negative integer satisfying the predicate. -/
theorem proof_of_work_finds_least (prev n : Nat)
    (h : satisfies_admission n prev = true) :
    ∃ p, proof_of_work (n + 1) prev = some p ∧ satisfies_admission p prev = true ∧
      ∀ q, q < p → satisfies_admission q prev = false := by
  obtain ⟨p, hfind, hp, -, hmin⟩ :=
    proofOfWorkAux_finds_least (n + 1) 0 n prev (by omega) (by simpa using h)
  exact ⟨p, hfind, hp, fun q hq => hmin q (Nat.zero_le q) hq⟩

/-- Witness for C4: `prev_proof = 0` with the concrete admissible
candidate 88914. -/
theorem proof_of_work_finds_least_witness :
    ∃ p, proof_of_work 88915 0 = some p ∧ satisfies_admission p 0 = true ∧
      ∀ q, q < p → satisfies_admission q 0 = false :=
  proof_of_work_finds_least 0 88914 (by decide)

/-- Claim C3 (amended): the admission predicate, in the argument order the
program uses (`satisfies_admission candidate prev`), holds iff the digest
of `candidate_proof` rendered first and then `prev_proof` has an all-zero
leading prefix of 4 hex characters. -/
theorem satisfies_admission_digest_order (c p : Nat) :
    satisfies_admission c p = true ↔
      (sha256hexOfStr (decimalStr c ++ decimalStr p)).take 4 = zeros4 := by
  simp [satisfies_admission, verifying_proof]

/-- Counterexample to claim C3 as stated: at `candidate_proof = 88914`,
`prev_proof = 0`, the admission predicate holds although the digest in
the order the claim states it (previous proof rendered first) has no
all-zero 4-character prefix. -/
theorem satisfies_admission_order_counterexample :
    satisfies_admission 88914 0 = true ∧ admission_spec_order 88914 0 = false :=
  ⟨by decide, by decide⟩

/-! ## Append-only sealing and the chain-linkage invariant -/

/-- `List.getD` on an appended list, inside the left part. -/
theorem getD_append_left (d : β) :
    ∀ (l l' : List β) (i : Nat), i < l.length → (l ++ l').getD i d = l.getD i d := by
  intro l
  induction l with
  | nil => intro l' i h; simp at h
  | cons a t ih =>
    intro l' i h
    cases i with
    | zero => rfl
    | succ j => exact ih l' j (by simpa using h)

/-- `List.getD` at the appended position. -/
theorem getD_concat_length (d : β) :
    ∀ (l : List β) (b : β), (l ++ [b]).getD l.length d = b := by
  intro l
  induction l with
  | nil => intro b; rfl
  | cons a t ih => intro b; exact ih b

/-- `getLast?` of a non-empty list in `getD` form. -/
theorem getLast?_eq_getD (d : β) :
    ∀ (l : List β), l ≠ [] → l.getLast? = some (l.getD (l.length - 1) d) := by
  intro l
  induction l with
  | nil => intro h; exact absurd rfl h
  | cons a t ih =>
    intro _
    cases ht : t with
    | nil => rfl
    | cons b t' =>
      rw [List.getLast?_cons_cons]
      rw [ht] at ih
      have := ih (by simp)
      simpa using this

/-- Extract an adjacent pair from `List.Chain'`, in `getD` form. -/
theorem chain'_getD {R : β → β → Prop} (d : β) :
    ∀ (l : List β), List.Chain' R l → ∀ i, i + 1 < l.length →
      R (l.getD i d) (l.getD (i + 1) d) := by
  intro l
  induction l with
  | nil => intro _ i h; simp at h
  | cons a t ih =>
    intro hc i h
    cases t with
    | nil => simp at h
    | cons b t' =>
      rw [List.chain'_cons] at hc
      cases i with
      | zero => exact hc.1
      | succ j => exact ih hc.2 j (by simpa using h)

/-- Claim C8: every call to `construct_block` (the seal) appends exactly
one block — the length grows by 1, every block already in the chain is
left unchanged in all its fields — and the pending buffer is empty
immediately afterwards. -/
theorem construct_block_append_only (p : Nat) (ph : Str) (now : Nat) (s : ChainSt α) :
    (construct_block p ph now s).chain.length = s.chain.length + 1 ∧
    (construct_block p ph now s).chain.take s.chain.length = s.chain ∧
    (∀ i, i < s.chain.length →
      (construct_block p ph now s).chain.getD i defaultBlock =
        s.chain.getD i defaultBlock) ∧
    (construct_block p ph now s).current_data = [] := by
  refine ⟨?_, ?_, ?_, rfl⟩
  · simp [construct_block, save_block]
  · simp [construct_block, save_block, List.take_left]
  · intro i hi
    simp only [construct_block, save_block]
    exact getD_append_left defaultBlock s.chain _ i hi

/-- The chain-linkage relation between two adjacent blocks: hash linkage,
index contiguity and the admission predicate (the three conditions of
`check_validity`). -/
def linked (render : List α → Str) (a b : Block α) : Prop :=
  b.prev_hash = calculate_hash render a ∧ b.index = a.index + 1 ∧
    verifying_proof b.proof_no a.proof_no = true

/-- Structural invariant of reachable chain states: the chain is
non-empty, block `i` carries index `i`, and every adjacent pair is
linked. -/
def wfState (render : List α → Str) (s : ChainSt α) : Prop :=
  s.chain ≠ [] ∧
  (∀ i, i < s.chain.length → (s.chain.getD i defaultBlock).index = (i : Int)) ∧
  List.Chain' (linked render) s.chain

/-- Every reachable chain state satisfies the structural invariant. -/
theorem reachable_wf {render : List α → Str} {s : ChainSt α}
    (h : Reachable render s) : wfState render s := by
  induction h with
  | genesis name now =>
    refine ⟨by simp [genesisChain, construct_genesis, construct_block, save_block], ?_, ?_⟩
    · intro i hi
      simp only [genesisChain, construct_genesis, construct_block, save_block,
        emptyChain, List.nil_append, List.length_cons, List.length_nil] at hi
      have : i = 0 := by omega
      subst this
      simp [genesisChain, construct_genesis, construct_block, save_block, emptyChain]
    · simp [genesisChain, construct_genesis, construct_block, save_block, emptyChain,
        List.chain'_singleton]
  | step r p now hr hp ih =>
    rename_i s'
    obtain ⟨hne, hidx, hchain⟩ := ih
    refine ⟨by simp [sealRecord, construct_block, save_block], ?_, ?_⟩
    · intro i hi
      simp only [sealRecord, construct_block, save_block] at hi ⊢
      simp only [List.length_append, List.length_cons, List.length_nil] at hi
      rcases Nat.lt_or_ge i s'.chain.length with hlt | hge
      · rw [getD_append_left defaultBlock s'.chain _ i hlt]
        exact hidx i hlt
      · have : i = s'.chain.length := by omega
        subst this
        rw [getD_concat_length]
    · simp only [sealRecord, construct_block, save_block]
      rw [List.chain'_append]
      refine ⟨hchain, List.chain'_singleton _, ?_⟩
      intro a ha y hy
      simp only [List.head?_cons, Option.mem_def, Option.some.injEq] at hy
      subst hy
      have hlast : s'.chain.getLast? =
          some (s'.chain.getD (s'.chain.length - 1) defaultBlock) :=
        getLast?_eq_getD defaultBlock s'.chain hne
      rw [hlast] at ha
      simp only [Option.mem_def, Option.some.injEq] at ha
      subst ha
      have hlb : latest_block s' = s'.chain.getD (s'.chain.length - 1) defaultBlock := by
        simp [latest_block, List.getLastD_eq_getLast?,
          getLast?_eq_getD defaultBlock s'.chain hne]
      refine ⟨by rw [← hlb], ?_, ?_⟩
      · have hlen : 0 < s'.chain.length := List.length_pos.mpr hne
        have hx := hidx (s'.chain.length - 1) (by omega)
        simp only [hx]
        omega
      · simp only [← hlb]
        exact hp

/-- Claim C1: in every chain state reachable by constructing a chain
(genesis) and performing any sequence of sealing operations, every block
`i ≥ 1` carries the digest of its predecessor as `prev_hash`, the
successor index, and a proof satisfying the admission predicate against
the predecessor's proof. -/
theorem reachable_chain_linkage {render : List α → Str} {s : ChainSt α}
    (h : Reachable render s) :
    ∀ i, 1 ≤ i → i < s.chain.length →
      (s.chain.getD i defaultBlock).prev_hash =
          calculate_hash render (s.chain.getD (i - 1) defaultBlock) ∧
      (s.chain.getD i defaultBlock).index =
          (s.chain.getD (i - 1) defaultBlock).index + 1 ∧
      verifying_proof (s.chain.getD i defaultBlock).proof_no
          (s.chain.getD (i - 1) defaultBlock).proof_no = true := by
  intro i h1 h2
  have hw := (reachable_wf h).2.2
  have hl := chain'_getD defaultBlock s.chain hw (i - 1) (by omega)
  rw [Nat.sub_add_cancel h1] at hl
  exact hl

/-- The default chain name `'default'`. -/
def nmDefault : Str := ['d', 'e', 'f', 'a', 'u', 'l', 't']

/-- `FileBlockchain`'s default `storage_dir`, `'file_blockchain'`. -/
def sdFileB : Str :=
  ['f', 'i', 'l', 'e', '_', 'b', 'l', 'o', 'c', 'k', 'c', 'h', 'a', 'i', 'n']

/-- `AccessBlockchain`'s default `storage_dir`, `'access_blockchain'`. -/
def sdAccess : Str :=
  ['a', 'c', 'c', 'e', 's', 's', '_', 'b', 'l', 'o', 'c', 'k', 'c', 'h', 'a', 'i', 'n']

/-- `IndexBlockchain`'s default `storage_dir`, `'index_blockchain'`. -/
def sdIndex : Str :=
  ['i', 'n', 'd', 'e', 'x', '_', 'b', 'l', 'o', 'c', 'k', 'c', 'h', 'a', 'i', 'n']

/-! ## Payload records of the three specializations

Payload dicts are embedded as structures; the `render` functions model
Python's `str()` of the list of dicts inside `calculate_hash` (quotes and
braces built by code point; escape sequences inside values are not
modelled — no claim depends on the rendered text). -/

/-- `{'file_name': ..., 'file_date': ..., 'file_content': ..., 'owner': ...}`. -/
structure FileRec where
  file_name : Str
  file_date : Str
  file_content : Str
  owner : Str
deriving DecidableEq

/-- `{'file_name': ..., 'owner': ..., 'user_to_share': ..., 'timestamp': ...}`. -/
structure AccessRec where
  file_name : Str
  owner : Str
  user_to_share : Str
  timestamp : Str
deriving DecidableEq

/-- One entry of `get_file_list()`. -/
structure FileListEntry where
  file_name : Str
  owner : Str
  file_date : Str
deriving DecidableEq

/-- `{'file_list': ..., 'timestamp': ...}`. -/
structure IndexRec where
  file_list : List FileListEntry
  timestamp : Str
deriving DecidableEq

def pyQuote : Char := Char.ofNat 39

def pyLBrace : Char := Char.ofNat 123

def pyRBrace : Char := Char.ofNat 125

/-- Python `repr` of a string (no escaping modelled). -/
def pyStrRepr (s : Str) : Str := pyQuote :: s ++ [pyQuote]

/-- Python `str` of a dict with string keys. -/
def pyDictRepr (fields : List (Str × Str)) : Str :=
  pyLBrace :: List.intercalate [',', ' ']
    (fields.map (fun kv => pyStrRepr kv.1 ++ ':' :: ' ' :: kv.2)) ++ [pyRBrace]

/-- Python `str` of a list given renderings of its elements. -/
def pyListRepr (elems : List Str) : Str :=
  '[' :: List.intercalate [',', ' '] elems ++ [']']

def renderFileRec (r : FileRec) : Str :=
  pyDictRepr [("file_name".toList, pyStrRepr r.file_name),
              ("file_date".toList, pyStrRepr r.file_date),
              ("file_content".toList, pyStrRepr r.file_content),
              ("owner".toList, pyStrRepr r.owner)]

def renderFile (l : List FileRec) : Str := pyListRepr (l.map renderFileRec)

def renderAccessRec (r : AccessRec) : Str :=
  pyDictRepr [("file_name".toList, pyStrRepr r.file_name),
              ("owner".toList, pyStrRepr r.owner),
              ("user_to_share".toList, pyStrRepr r.user_to_share),
              ("timestamp".toList, pyStrRepr r.timestamp)]

def renderAccess (l : List AccessRec) : Str := pyListRepr (l.map renderAccessRec)

def renderEntry (e : FileListEntry) : Str :=
  pyDictRepr [("file_name".toList, pyStrRepr e.file_name),
              ("owner".toList, pyStrRepr e.owner),
              ("file_date".toList, pyStrRepr e.file_date)]

def renderIndexRec (r : IndexRec) : Str :=
  pyDictRepr [("file_list".toList, pyListRepr (r.file_list.map renderEntry)),
              ("timestamp".toList, pyStrRepr r.timestamp)]

def renderIndex (l : List IndexRec) : Str := pyListRepr (l.map renderIndexRec)

/-- `bytes.hex()` of one byte. -/
def hexByte (b : Nat) : Str := [hexCh (b / 16 % 16), hexCh (b % 16)]

/-- `file_content.hex()`. -/
def bytesHex (bs : List Nat) : Str := bs.foldr (fun b acc => hexByte b ++ acc) []

/-- Numeric value of a (lower-case) hex digit. -/
def hexVal (c : Char) : Nat := if c.toNat ≥ 97 then c.toNat - 87 else c.toNat - 48

/-- `bytes.fromhex`: consume hex-digit pairs. -/
def bytes_fromhex : Str → List Nat
  | c1 :: c2 :: rest => (hexVal c1 * 16 + hexVal c2) :: bytes_fromhex rest
  | _ => []

/-! ## `FileBlockchain` of `BlockChainBackup.py` -/

/-- The state of a `BlockChainBackup.py` `FileBlockchain`: the generic
chain state plus the derived `file_index` and the in-memory `users`
credential map. -/
structure FileSt where
  core : ChainSt FileRec
  file_index : List (Str × Int)
  users : List (Str × Str)
deriving DecidableEq

/-- `FileBlockchain.update_file_index()`: rebuild the path-to-block-index
dict by scanning the whole chain (every `FileRec` carries `file_name`). -/
def update_file_index (chain : List (Block FileRec)) : List (Str × Int) :=
  chain.foldl (fun fi b => b.data.foldl (fun fi' d => updateA fi' d.file_name b.index) fi) []

/-- A freshly constructed `FileBlockchain` over an empty storage
directory: genesis chain, empty `file_index` and `users`. -/
def freshFileB (now : Nat) : FileSt := ⟨genesisChain sdFileB nmDefault now, [], []⟩

/-- `AccessBlockchain.grant_access(file_name, owner, user_to_share)`;
`dateStr` is the formatted `datetime.now()` and `p` the `proof_of_work`
result. -/
def grant_access (file_name owner user_to_share : Str) (p now : Nat) (dateStr : Str)
    (s : ChainSt AccessRec) : ChainSt AccessRec :=
  sealRecord renderAccess ⟨file_name, owner, user_to_share, dateStr⟩ p now s

/-- `FileBlockchain.get_file_list()`. -/
def get_file_list (chain : List (Block FileRec)) : List FileListEntry :=
  chain.foldl (fun acc b => acc ++ b.data.map (fun d => ⟨d.file_name, d.owner, d.file_date⟩)) []

/-- `IndexBlockchain.update_index(file_list)`. -/
def update_index (file_list : List FileListEntry) (p now : Nat) (dateStr : Str)
    (s : ChainSt IndexRec) : ChainSt IndexRec :=
  sealRecord renderIndex ⟨file_list, dateStr⟩ p now s

/-- `FileBlockchain.add_file` of `BlockChainBackup.py` (the spec's
`put_file`): seal a file record into a new block, rebuild `file_index`,
grant the owner access in the access chain and refresh the index chain.
`relative_path` is the `os.path.relpath` of the stored path (computed at
the boundary); `p`, `pAcc`, `pIdx` stand for the three `proof_of_work`
results and `dateA`, `dateI` for the formatted `datetime.now()` strings. -/
def add_file (relative_path file_date : Str) (file_content : List Nat) (owner : Str)
    (p pAcc pIdx now : Nat) (dateA dateI : Str)
    (fs : FileSt) (acc : ChainSt AccessRec) (idx : ChainSt IndexRec) :
    FileSt × ChainSt AccessRec × ChainSt IndexRec :=
  let core' := sealRecord renderFile
    ⟨relative_path, file_date, bytesHex file_content, owner⟩ p now fs.core
  let fs' : FileSt := ⟨core', update_file_index core'.chain, fs.users⟩
  let acc' := grant_access relative_path owner owner pAcc now dateA acc
  let idx' := update_index (get_file_list core'.chain) pIdx now dateI idx
  (fs', acc', idx')

/-- `FileBlockchain.is_file_in_chain(file_name)`. -/
def is_file_in_chain (fs : FileSt) (file_name : Str) : Bool :=
  containsA fs.file_index file_name

/-- `FileBlockchain.get_file_content(file_name, owner, is_shared)` of
`BlockChainBackup.py`: resolve the owning block through `file_index`, run
the windowed integrity check, then scan the loaded window for a record
with this name whose owner matches (or any record with this name when
`is_shared` is set) and decode its content.  The result is
`some (some bytes)` for returned content, `some none` for a Python
`return None`, and `none` when a `FileNotFoundError` from the read path
propagates out of the call. -/
def get_file_content (fs : FileSt) (file_name owner : Str) (is_shared : Bool) :
    Option (Option (List Nat)) :=
  match lookupA fs.file_index file_name with
  | none => some none
  | some block_index =>
    match verify_chain_integrity renderFile fs.core block_index with
    | none => none
    | some ok =>
      if !ok then some none
      else
        match load_adjacent_blocks fs.core block_index with
        | none => none
        | some loaded =>
          match loaded.findSome? (fun b =>
              b.data.find? (fun d =>
                decide (d.file_name = file_name) &&
                  (decide (d.owner = owner) || is_shared))) with
          | some d => some (some (bytes_fromhex d.file_content))
          | none => some none

/-- `FileBlockchain.register_user(username, password)` of
`BlockChainBackup.py`: reject existing names, otherwise store the SHA-256
digest of the password in the in-memory `users` dict.  (No record is
appended and no block is sealed in this variant.) -/
def register_userB (username password : Str) (fs : FileSt) : Bool × FileSt :=
  if containsA fs.users username then (false, fs)
  else (true, ⟨fs.core, fs.file_index, updateA fs.users username (sha256hexOfStr password)⟩)

/-! ## `AccessBlockchain` -/

/-- `os.path.basename`: everything after the last `/`. -/
def basename (p : Str) : Str := (p.reverse.takeWhile (fun c => decide (c ≠ '/'))).reverse

/-- `AccessBlockchain.has_access(file_name, user)`: scan every record of
every block for a matching basename granted to or by `user`. -/
def has_access (s : ChainSt AccessRec) (file_name user : Str) : Bool :=
  s.chain.any (fun b => b.data.any (fun d =>
    decide (basename d.file_name = basename file_name) &&
      (decide (d.user_to_share = user) || decide (d.owner = user))))

/-! ## `FileBlockchain` of `main.py` (credential records live on the chain) -/

/-- A payload record of the `main.py` content chain: either a file record
or a credential record `{'username': ..., 'password_hash': ...}`. -/
inductive MRec where
  | file (f : FileRec)
  | cred (username password_hash : Str)
deriving DecidableEq

def renderMRec : MRec → Str
  | .file f => renderFileRec f
  | .cred u ph =>
    pyDictRepr [("username".toList, pyStrRepr u), ("password_hash".toList, pyStrRepr ph)]

def renderM (l : List MRec) : Str := pyListRepr (l.map renderMRec)

/-- The state of a `main.py` `FileBlockchain`. -/
structure MFileSt where
  core : ChainSt MRec
  file_index : List (Str × Int)
  users : List (Str × Str)
deriving DecidableEq

/-- A freshly constructed `main.py` `FileBlockchain` over an empty
storage directory. -/
def freshFileM (now : Nat) : MFileSt := ⟨genesisChain sdFileB nmDefault now, [], []⟩

/-- `Blockchain.construct_block` of `main.py`: as `construct_block`, but
first re-checks the tail index and afterwards re-verifies the whole
chain, raising `ValueError` (here: `none`) on failure. -/
def construct_blockM (render : List α → Str) (proof_no : Nat) (prev_hash : Str)
    (now : Nat) (s : ChainSt α) : Option (ChainSt α) :=
  if !s.chain.isEmpty && decide ((latest_block s).index + 1 ≠ (s.chain.length : Int)) then
    none
  else
    let s' := construct_block proof_no prev_hash now s
    if verify_full render s'.chain then some s' else none

/-- `FileBlockchain.add_user(username, password)` of `main.py`: append a
credential record, seal it into a new block and store the digest in
`users`; `p` stands for the `proof_of_work` result. -/
def add_user (username password : Str) (p now : Nat) (fs : MFileSt) : Option MFileSt :=
  let password_hash := sha256hexOfStr password
  match construct_blockM renderM p (calculate_hash renderM (latest_block fs.core)) now
      { fs.core with current_data := fs.core.current_data ++ [.cred username password_hash] }
    with
  | none => none
  | some core' => some ⟨core', fs.file_index, updateA fs.users username password_hash⟩

/-- `FileBlockchain.register_user(username, password)` of `main.py`:
reject existing names, otherwise `add_user` and return `True`. -/
def register_userM (username password : Str) (p now : Nat) (fs : MFileSt) :
    Option (Bool × MFileSt) :=
  if containsA fs.users username then some (false, fs)
  else
    match add_user username password p now fs with
    | none => none
    | some fs' => some (true, fs')

/-! ## Association-list lemmas -/

/-- Looking up the key just written. -/
theorem lookupA_updateA_self [DecidableEq κ] (l : List (κ × β)) (k : κ) (v : β) :
    lookupA (updateA l k v) k = some v := by
  induction l with
  | nil => simp [updateA, lookupA]
  | cons e rest ih =>
    by_cases h : e.1 = k
    · simp [updateA, h, lookupA]
    · simp [updateA, h, lookupA, ih]

/-- Looking up a different key than the one written. -/
theorem lookupA_updateA_ne [DecidableEq κ] (l : List (κ × β)) (k k' : κ) (v : β)
    (h : k ≠ k') : lookupA (updateA l k v) k' = lookupA l k' := by
  induction l with
  | nil => simp [updateA, lookupA, h]
  | cons e rest ih =>
    by_cases he : e.1 = k
    · simp [updateA, he, lookupA, h]
    · simp only [updateA, if_neg he]
      by_cases he' : e.1 = k'
      · simp [lookupA, he']
      · simp [lookupA, he', ih]

/-- A successful lookup names an entry of the list. -/
theorem lookupA_mem [DecidableEq κ] :
    ∀ (l : List (κ × β)) (k : κ) (v : β), lookupA l k = some v → (k, v) ∈ l := by
  intro l
  induction l with
  | nil => intro k v h; simp [lookupA] at h
  | cons e rest ih =>
    intro k v h
    by_cases he : e.1 = k
    · simp only [lookupA, if_pos he, Option.some.injEq] at h
      subst h
      rw [← he]
      exact List.mem_cons_self e rest
    · simp only [lookupA, if_neg he] at h
      exact List.mem_cons_of_mem e (ih k v h)

/-- `dedupStr` keeps only elements of its input. -/
theorem dedupStr_subset : ∀ (l : List Str) (x : Str), x ∈ dedupStr l → x ∈ l := by
  intro l
  induction l with
  | nil => intro x h; simp [dedupStr] at h
  | cons a rest ih =>
    intro x h
    simp only [dedupStr, List.mem_cons] at h
    rcases h with h | h
    · exact h ▸ List.mem_cons_self a rest
    · exact List.mem_cons_of_mem a (ih x (List.mem_of_mem_filter h))

/-- Membership and key of a successful `blocksByIndex` lookup. -/
theorem blocksByIndex_lookup :
    ∀ (bl : List (Block α)) (d : List (Int × Block α)) (t : Int) (b : Block α),
      lookupA (bl.foldl (fun d b => updateA d b.index b) d) t = some b →
        lookupA d t = some b ∨ (b ∈ bl ∧ b.index = t) := by
  intro bl
  induction bl with
  | nil => intro d t b h; exact Or.inl h
  | cons a rest ih =>
    intro d t b h
    rcases ih _ t b h with h' | h'
    · by_cases ha : a.index = t
      · subst ha
        rw [lookupA_updateA_self] at h'
        rw [← Option.some.inj h']
        exact Or.inr ⟨List.mem_cons_self a rest, rfl⟩
      · rw [lookupA_updateA_ne _ _ _ _ ha] at h'
        exact Or.inl h'
    · exact Or.inr ⟨List.mem_cons_of_mem a h'.1, h'.2⟩

/-! ## Claim theorems over the specializations -/

def fTxt : Str := ['f', '.', 't', 'x', 't']

def aliceS : Str := ['a', 'l', 'i', 'c', 'e']

def bobS : Str := ['b', 'o', 'b']

def carolS : Str := ['c', 'a', 'r', 'o', 'l']

/-- `b"hi"`. -/
def hiBytes : List Nat := [104, 105]

/-- A sample access-grant record. -/
def sampleGrant : AccessRec := ⟨fTxt, aliceS, bobS, ['t']⟩

/-- A two-block reachable access-chain state: genesis plus one sealed
grant, using the concrete admissible proof 88914. -/
def c1WitnessState : ChainSt AccessRec :=
  sealRecord renderAccess sampleGrant 88914 1 (genesisChain sdAccess nmDefault 0)

/-- Witness for C1: the linkage invariant at `i = 1` of a concrete
two-block reachable chain. -/
theorem reachable_chain_linkage_witness :
    (c1WitnessState.chain.getD 1 defaultBlock).prev_hash =
        calculate_hash renderAccess (c1WitnessState.chain.getD (1 - 1) defaultBlock) ∧
    (c1WitnessState.chain.getD 1 defaultBlock).index =
        (c1WitnessState.chain.getD (1 - 1) defaultBlock).index + 1 ∧
    verifying_proof (c1WitnessState.chain.getD 1 defaultBlock).proof_no
        (c1WitnessState.chain.getD (1 - 1) defaultBlock).proof_no = true :=
  reachable_chain_linkage
    (Reachable.step sampleGrant 88914 1 (Reachable.genesis sdAccess nmDefault 0)
      (by decide))
    1 (by decide) (by decide)

/-- Claim C5 (amended, `main.py` variant): `register_user` returns `false`
and changes nothing when the name is taken; otherwise it appends a
credential record, seals it into a new block, stores the password digest
and returns `true`. -/
theorem register_userM_spec (fs : MFileSt) (u pw : Str) (p now : Nat) :
    (containsA fs.users u = true → register_userM u pw p now fs = some (false, fs)) ∧
    (containsA fs.users u = false → ∀ b fs',
      register_userM u pw p now fs = some (b, fs') →
        b = true ∧
        lookupA fs'.users u = some (sha256hexOfStr pw) ∧
        fs'.core.chain = fs.core.chain ++
          [⟨(fs.core.chain.length : Int), p,
            calculate_hash renderM (latest_block fs.core),
            fs.core.current_data ++ [MRec.cred u (sha256hexOfStr pw)], now⟩] ∧
        fs'.core.current_data = [] ∧
        fs'.file_index = fs.file_index) := by
  constructor
  · intro hc
    simp [register_userM, hc]
  · intro hc b fs' h
    simp only [register_userM, hc, Bool.false_eq_true, if_false] at h
    cases hadd : add_user u pw p now fs with
    | none => rw [hadd] at h; exact absurd h (by simp)
    | some fs'' =>
      rw [hadd] at h
      simp only [Option.some.injEq, Prod.mk.injEq] at h
      obtain ⟨hb, hfs⟩ := h
      subst hfs
      simp only [add_user] at hadd
      cases hcon : construct_blockM renderM p
          (calculate_hash renderM (latest_block fs.core)) now
          { fs.core with
            current_data := fs.core.current_data ++ [.cred u (sha256hexOfStr pw)] } with
      | none => rw [hcon] at hadd; exact absurd hadd (by simp)
      | some core' =>
        rw [hcon] at hadd
        simp only [Option.some.injEq] at hadd
        subst hadd
        simp only [construct_blockM] at hcon
        by_cases hck : (!({ fs.core with
            current_data :=
              fs.core.current_data ++ [.cred u (sha256hexOfStr pw)] } :
              ChainSt MRec).chain.isEmpty &&
            decide ((latest_block { fs.core with
              current_data :=
                fs.core.current_data ++ [.cred u (sha256hexOfStr pw)] }).index + 1 ≠
              (({ fs.core with
                current_data :=
                  fs.core.current_data ++ [.cred u (sha256hexOfStr pw)] } :
                  ChainSt MRec).chain.length : Int))) = true
        · rw [if_pos hck] at hcon; exact absurd hcon (by simp)
        · rw [if_neg hck] at hcon
          by_cases hvf : verify_full renderM
              (construct_block p (calculate_hash renderM (latest_block fs.core)) now
                { fs.core with
                  current_data :=
                    fs.core.current_data ++ [.cred u (sha256hexOfStr pw)] }).chain = true
          · rw [if_pos hvf] at hcon
            simp only [Option.some.injEq] at hcon
            subst hcon
            refine ⟨hb.symm, ?_, ?_, rfl, rfl⟩
            · simp [lookupA_updateA_self]
            · simp [construct_block, save_block]
          · rw [if_neg hvf] at hcon; exact absurd hcon (by simp)

/-- Witness for C5 at a fresh content chain and the new user `"a"`. -/
theorem register_userM_spec_witness :
    (containsA (freshFileM 0).users ['a'] = true →
      register_userM ['a'] ['p'] 88914 1 (freshFileM 0) = some (false, freshFileM 0)) ∧
    (containsA (freshFileM 0).users ['a'] = false → ∀ b fs',
      register_userM ['a'] ['p'] 88914 1 (freshFileM 0) = some (b, fs') →
        b = true ∧
        lookupA fs'.users ['a'] = some (sha256hexOfStr ['p']) ∧
        fs'.core.chain = (freshFileM 0).core.chain ++
          [⟨((freshFileM 0).core.chain.length : Int), 88914,
            calculate_hash renderM (latest_block (freshFileM 0).core),
            (freshFileM 0).core.current_data ++
              [MRec.cred ['a'] (sha256hexOfStr ['p'])], 1⟩] ∧
        fs'.core.current_data = [] ∧
        fs'.file_index = (freshFileM 0).file_index) :=
  register_userM_spec (freshFileM 0) ['a'] ['p'] 88914 1

/-- Claim C7: `has_access` is true exactly when some record anywhere in
the chain matches on basename and names the identity as grantee
(`user_to_share`) or granter (`owner`); and after granting `"f.txt"` from
`"alice"` to `"bob"` on a fresh access chain, `"bob"` has access and
`"carol"` does not. -/
theorem has_access_iff_and_grant_example :
    (∀ (s : ChainSt AccessRec) (file_name user : Str),
      has_access s file_name user = true ↔
        ∃ b ∈ s.chain, ∃ d ∈ b.data,
          basename d.file_name = basename file_name ∧
            (d.user_to_share = user ∨ d.owner = user)) ∧
    (∀ (p now n0 : Nat) (dateStr : Str),
      has_access (grant_access fTxt aliceS bobS p now dateStr
        (genesisChain sdAccess nmDefault n0)) fTxt bobS = true ∧
      has_access (grant_access fTxt aliceS bobS p now dateStr
        (genesisChain sdAccess nmDefault n0)) fTxt carolS = false) := by
  constructor
  · intro s file_name user
    simp [has_access, List.any_eq_true]
  · intro p now n0 dateStr
    constructor
    · simp [has_access, grant_access, sealRecord, construct_block, save_block,
        genesisChain, construct_genesis, emptyChain, latest_block, List.any_eq_true]
    · simp only [has_access, grant_access, sealRecord, construct_block, save_block,
        genesisChain, construct_genesis, emptyChain, latest_block]
      simp [List.any_eq_true]
      exact ⟨by decide, by decide⟩

/-- Claim C9: on the read path of `get_file_content`, a windowed
integrity check that completes and reports failure makes the read return
`None` (`some none`) — no content, never file bytes. -/
theorem get_file_content_integrity_failure (fs : FileSt) (file_name owner : Str)
    (is_shared : Bool) (bi : Int)
    (hbi : lookupA fs.file_index file_name = some bi)
    (hv : verify_chain_integrity renderFile fs.core bi = some false) :
    get_file_content fs file_name owner is_shared = some none := by
  simp [get_file_content, hbi, hv]

/-- A content-chain state whose `file_index` points at block index 5,
which has no storage unit at all: the windowed check there reads nothing
and reports failure. -/
def c9WitnessState : FileSt := ⟨genesisChain sdFileB nmDefault 0, [(fTxt, 5)], []⟩

/-- Witness for C9: the failing read returns `None`. -/
theorem get_file_content_integrity_failure_witness :
    get_file_content c9WitnessState fTxt aliceS false = some none :=
  get_file_content_integrity_failure c9WitnessState fTxt aliceS false 5
    (by decide) (by decide)

/-- The storage units named by `chunk_index` all resolve to a readable
unit holding a block whose embedded index matches the `chunk_index` key.
This holds for a chain populated by `load_chain`, which records the bare
unit names returned by `os.listdir`; it fails for units recorded by
`save_block` in the current session, whose already-joined paths do not
resolve. -/
def storeConsistent (s : ChainSt α) : Bool :=
  s.chunk_index.all (fun e =>
    match lookupA s.dir e.2 with
    | some b => decide (b.index = e.1)
    | none => false)

/-- Counterexample to claim C10 as stated: the windowed verification does
not return `false` for every missing target index — it can raise instead
of returning at all.  On a freshly constructed chain (genesis sealed and
saved in this session) the target `-1` has no `chunk_index` entry, but
the check reads the neighbouring entry `0`, whose recorded path is
already `storage_dir`-joined; `load_block` joins `storage_dir` again and
the open raises `FileNotFoundError` (modelled `none`). -/
theorem verify_window_missing_index_counterexample :
    lookupA (genesisChain sdFileB nmDefault 0 : ChainSt FileRec).chunk_index (-1) =
      none ∧
    verify_chain_integrity renderFile
      (genesisChain sdFileB nmDefault 0 : ChainSt FileRec) (-1) = none :=
  ⟨by decide, by decide⟩

/-- Reading a list of units succeeds when each one resolves, and every
block read comes from one of the listed units. -/
theorem loadAll_ok (s : ChainSt α) :
    ∀ (files : List Str), (∀ f ∈ files, (load_block s f).isSome = true) →
      ∃ bl, loadAll s files = some bl ∧
        ∀ b ∈ bl, ∃ f ∈ files, load_block s f = some b := by
  intro files
  induction files with
  | nil => intro _; exact ⟨[], rfl, by simp⟩
  | cons f fs ih =>
    intro h
    have hf := h f (List.mem_cons_self _ _)
    cases hlb : load_block s f with
    | none => rw [hlb] at hf; simp at hf
    | some b =>
      obtain ⟨bl, hbl, hmem⟩ := ih (fun g hg => h g (List.mem_cons_of_mem _ hg))
      refine ⟨b :: bl, ?_, ?_⟩
      · simp [loadAll, hlb, hbl]
      · intro b' hb'
        rcases List.mem_cons.mp hb' with rfl | hb''
        · exact ⟨f, List.mem_cons_self _ _, hlb⟩
        · obtain ⟨g, hg, hlg⟩ := hmem b' hb''
          exact ⟨g, List.mem_cons_of_mem _ hg, hlg⟩

/-- On a consistent store, the windowed load around a missing target
index succeeds and returns only neighbour blocks. -/
theorem load_adjacent_missing (s : ChainSt α) (t : Int)
    (hcons : storeConsistent s = true)
    (hmiss : lookupA s.chunk_index t = none) :
    ∃ bl, load_adjacent_blocks s t = some bl ∧ ∀ b ∈ bl, b.index ≠ t := by
  have hcand : ∀ f, f ∈ ((if t > 0 then
        match lookupA s.chunk_index (t - 1) with
        | some f => [f]
        | none => []
      else []) ++
      (match lookupA s.chunk_index (t + 1) with
        | some f => [f]
        | none => [])) →
      ∃ j : Int, (j = t - 1 ∨ j = t + 1) ∧ lookupA s.chunk_index j = some f := by
    intro f hf
    rw [List.mem_append] at hf
    rcases hf with h2 | h3
    · by_cases ht : t > 0
      · rw [if_pos ht] at h2
        cases hl : lookupA s.chunk_index (t - 1) with
        | none => rw [hl] at h2; simp at h2
        | some f' =>
          rw [hl] at h2
          simp at h2
          exact ⟨t - 1, Or.inl rfl, h2 ▸ hl⟩
      · rw [if_neg ht] at h2; simp at h2
    · cases hl : lookupA s.chunk_index (t + 1) with
      | none => rw [hl] at h3; simp at h3
      | some f' =>
        rw [hl] at h3
        simp at h3
        exact ⟨t + 1, Or.inr rfl, h3 ▸ hl⟩
  rw [storeConsistent, List.all_eq_true] at hcons
  have hread : ∀ f ∈ dedupStr ((if t > 0 then
        match lookupA s.chunk_index (t - 1) with
        | some f => [f]
        | none => []
      else []) ++
      (match lookupA s.chunk_index (t + 1) with
        | some f => [f]
        | none => [])), (load_block s f).isSome = true := by
    intro f hf
    obtain ⟨j, hj, hlj⟩ := hcand f (dedupStr_subset _ f hf)
    have hc := hcons (j, f) (lookupA_mem _ _ _ hlj)
    cases hl : lookupA s.dir f with
    | none => rw [hl] at hc; simp at hc
    | some b => simp [load_block, hl]
  obtain ⟨bl, hbl, hblmem⟩ := loadAll_ok s _ hread
  refine ⟨bl, ?_, ?_⟩
  · simp only [load_adjacent_blocks, hmiss, List.nil_append]
    exact hbl
  · intro b hb
    obtain ⟨f, hf, hlb⟩ := hblmem b hb
    obtain ⟨j, hj, hlj⟩ := hcand f (dedupStr_subset _ f hf)
    have hc := hcons (j, f) (lookupA_mem _ _ _ hlj)
    simp only [load_block] at hlb
    rw [hlb] at hc
    have hbj : b.index = j := by simpa using hc
    rcases hj with hj | hj <;> omega

/-- Claim C10 (amended): on every chain state whose `chunk_index` entries
resolve to readable storage units holding blocks with matching indices —
as for a chain populated by `load_chain`, which records bare unit names —
the windowed verification of a target index with no `chunk_index` entry
(one past the tail, or a negative one) returns `false` rather than
raising or reporting success. -/
theorem verify_window_missing_index (render : List α → Str) (s : ChainSt α) (t : Int)
    (hcons : storeConsistent s = true)
    (hmiss : lookupA s.chunk_index t = none) :
    verify_chain_integrity render s t = some false := by
  obtain ⟨bl, hbl, hidx⟩ := load_adjacent_missing s t hcons hmiss
  simp only [verify_chain_integrity, hbl]
  cases hlook : lookupA (blocksByIndex bl) t with
  | none => rfl
  | some tb =>
    exfalso
    simp only [blocksByIndex] at hlook
    rcases blocksByIndex_lookup _ [] t tb hlook with h | h
    · simp [lookupA] at h
    · exact hidx tb h.1 h.2

/-- A one-block chain state as `load_chain` reconstructs it from storage:
`chunk_index` records the bare unit name listed by `os.listdir`. -/
def c10WitnessState : ChainSt FileRec :=
  ⟨[⟨0, 0, zeroStr, [], 0⟩], [], [(0, fileNameFor nmDefault 0)],
   [(fileNameFor nmDefault 0, ⟨0, 0, zeroStr, [], 0⟩)], sdFileB, nmDefault⟩

/-- Witness for C10 at the negative target index `-1`. -/
theorem verify_window_missing_index_witness :
    verify_chain_integrity renderFile c10WitnessState (-1) = some false :=
  verify_window_missing_index renderFile c10WitnessState (-1) (by decide) (by decide)

/-- Counterexample to claim C5 as stated: `register_user` of
`BlockChainBackup.py` on a fresh content chain returns `true` yet appends
no credential record and seals no block — the chain is unchanged, still
holding only the genesis block. -/
theorem register_userB_no_block_counterexample :
    (register_userB ['a'] ['p'] (freshFileB 0)).1 = true ∧
    (register_userB ['a'] ['p'] (freshFileB 0)).2.core = (freshFileB 0).core ∧
    (freshFileB 0).core.chain.length = 1 :=
  ⟨rfl, rfl, rfl⟩

/-- The state of the content chain after storing `"f.txt"` with content
`b"hi"` for owner `"alice"` on a fresh chain (the spec's
`put_file("f.txt", t, b"hi", "alice")`); `p`, `pAcc`, `pIdx` are the
three `proof_of_work` results and the `n*` arguments the clock values. -/
def putScenario (t dA dI : Str) (p pA pI now n0 nA nI : Nat) : FileSt :=
  (add_file fTxt t hiBytes aliceS p pA pI now dA dI (freshFileB n0)
    (genesisChain sdAccess nmDefault nA) (genesisChain sdIndex nmDefault nI)).1

/-- Claim C6 is false of the code: after `put_file("f.txt", t, b"hi",
"alice")` on a fresh content chain, `get_file` in the SAME session raises
`FileNotFoundError` for every requesting identity and every shared flag —
it never returns `b"hi"`.  `save_block` records the already
`storage_dir`-joined unit path in `chunk_index`, and `load_block` joins
`storage_dir` again, so the read path opens a doubled path such as
`file_blockchain/file_blockchain/default_block_1.pkl`.  The raise is
modelled by `none`. -/
theorem get_file_after_put_raises (t dA dI : Str) (p pA pI now n0 nA nI : Nat)
    (requester : Str) (shared : Bool) :
    get_file_content (putScenario t dA dI p pA pI now n0 nA nI) fTxt
      requester shared = none := by
  simp [putScenario, add_file, sealRecord, construct_block, save_block, freshFileB,
    genesisChain, construct_genesis, emptyChain, latest_block, update_file_index,
    get_file_content, verify_chain_integrity, load_adjacent_blocks, load_block,
    loadAll, joinPath, dedupStr, blocksByIndex, check_validity, lookupA, updateA,
    containsA, fileNameFor, intStr, decimalStr, decimalAux, digitCh, sepBlockU,
    extPkl, zeroStr, nmDefault, sdFileB, fTxt]

/-! ## Persistence and `load_chain` (claim C2)

`BlockChainBackup.py` sorts the matching storage-unit names
lexically; `main.py` sorts them by the index embedded in the name
(`extract_block_index`). -/

/-- One pass of Python `str.split(sep)` (left to right, non-overlapping);
structural on a fuel argument, any fuel `≥` the length of the scanned
text is enough. -/
def splitAux (sep : Str) : Nat → Str → Str → List Str
  | _, acc, [] => [acc]
  | 0, acc, rest => [acc ++ rest]
  | f+1, acc, c :: cs =>
    if List.isPrefixOf sep (c :: cs) then
      acc :: splitAux sep f [] (List.drop sep.length (c :: cs))
    else
      splitAux sep f (acc ++ [c]) cs

/-- Python `s.split(sep)` (for non-empty `sep`). -/
def pySplit (s sep : Str) : List Str := splitAux sep s.length [] s

def extDot : Str := ['.']

/-- `extract_block_index(filename)` of `main.py`:
`int(filename.split('_block_')[-1].split('.')[0])`. -/
def extract_block_index (filename : Str) : Nat :=
  parseNat ((pySplit ((pySplit filename sepBlockU).getLastD []) extDot).headD [])

/-- Python string comparison `a < b` (lexicographic on code points). -/
def strLt : Str → Str → Bool
  | [], [] => false
  | [], _ :: _ => true
  | _ :: _, [] => false
  | a :: as, b :: bs =>
    if a.toNat < b.toNat then true
    else if b.toNat < a.toNat then false
    else strLt as bs

/-- Insert into a sorted list (stable insertion sort, modelling Python's
stable `sorted`). -/
def insertBy (lt : β → β → Bool) (x : β) : List β → List β
  | [] => [x]
  | y :: ys => if lt y x then y :: insertBy lt x ys else x :: y :: ys

/-- Stable sort by a strict comparison. -/
def sortBy (lt : β → β → Bool) : List β → List β
  | [] => []
  | x :: xs => insertBy lt x (sortBy lt xs)

/-- The storage directory produced by saving every block of a chain into
an initially empty directory (repeated `save_block`). -/
def saveAll (name : Str) (chain : List (Block α)) : List (Str × Block α) :=
  chain.foldl (fun d b => updateA d (fileNameFor name b.index) b) []

/-- `Blockchain.load_chain` of `BlockChainBackup.py`: list the matching
storage units, sort them LEXICALLY, unpickle each in that order; seal a
genesis block if nothing was found.  No validity check is run. -/
def load_chain_lex (sd name : Str) (now : Nat) (dir : List (Str × Block α)) : ChainSt α :=
  let block_files := sortBy strLt
    ((dir.map Prod.fst).filter (fun f => List.isPrefixOf (name ++ sepBlockU) f))
  let loaded := block_files.filterMap (fun f => (lookupA dir f).map (fun b => (f, b)))
  let chain := loaded.map Prod.snd
  let ci := loaded.foldl (fun d fb => updateA d fb.2.index fb.1) []
  if chain.isEmpty then construct_genesis now ⟨[], [], [], dir, sd, name⟩
  else ⟨chain, [], ci, dir, sd, name⟩

/-- The loading loop of `main.py`'s `load_chain`: append each unpickled
block after checking validity against the current tail; a failed check
raises (`none`). -/
def loadLoop (render : List α → Str) (dir : List (Str × Block α)) :
    List Str → List (Block α) × List (Int × Str) →
      Option (List (Block α) × List (Int × Str))
  | [], st => some st
  | f :: fs, (chain, ci) =>
    match lookupA dir f with
    | none => loadLoop render dir fs (chain, ci)
    | some block =>
      if chain.isEmpty then
        loadLoop render dir fs (chain ++ [block], updateA ci block.index f)
      else if check_validity render block (chain.getLastD defaultBlock) then
        loadLoop render dir fs (chain ++ [block], updateA ci block.index f)
      else none

/-- `Blockchain.load_chain` of `main.py`: list the matching storage
units, sort them BY EMBEDDED INDEX, unpickle each in that order checking
validity as it goes, seal a genesis block if nothing was found, then
re-verify the whole chain; `none` models the raised `ValueError`. -/
def load_chain_idx (render : List α → Str) (sd name : Str) (now : Nat)
    (dir : List (Str × Block α)) : Option (ChainSt α) :=
  let block_files := sortBy
    (fun a b => decide (extract_block_index a < extract_block_index b))
    ((dir.map Prod.fst).filter (fun f => List.isPrefixOf (name ++ sepBlockU) f))
  match loadLoop render dir block_files ([], []) with
  | none => none
  | some (chain, ci) =>
    let st : ChainSt α :=
      if chain.isEmpty then construct_genesis now ⟨[], [], [], dir, sd, name⟩
      else ⟨chain, [], ci, dir, sd, name⟩
    if verify_full render st.chain then some st else none

/-- An eleven-block chain (trivial payloads) and its persisted store. -/
def mkIdxBlock (i : Nat) : Block FileRec := ⟨(i : Int), 0, zeroStr, [], 0⟩

def chain11 : List (Block FileRec) := (List.range 11).map mkIdxBlock

def dir11 : List (Str × Block FileRec) := saveAll nmDefault chain11

/-- Counterexample to claim C2 as stated: reloading an 11-block persisted
chain through `BlockChainBackup.py`'s `load_chain` does NOT reproduce the
persisted sequence — the lexical filename sort places block 10 between
blocks 1 and 2. -/
theorem load_chain_lex_counterexample :
    (load_chain_lex sdFileB nmDefault 0 dir11).chain ≠ chain11 ∧
    (load_chain_lex sdFileB nmDefault 0 dir11).chain.map (fun b => b.index) =
      ([0, 1, 10, 2, 3, 4, 5, 6, 7, 8, 9] : List Int) :=
  ⟨by decide, by decide⟩

theorem isPrefixOf_append_self : ∀ (a b : List Char), List.isPrefixOf a (a ++ b) = true := by
  intro a b
  induction a with
  | nil => simp [List.isPrefixOf]
  | cons c cs ih => simp [List.isPrefixOf, ih]

theorem digitCh_toNat (d : Nat) (h : d < 10) : (digitCh d).toNat = 48 + d := by
  interval_cases d <;> decide

theorem decimalAux_digits :
    ∀ (f n : Nat) (c : Char), c ∈ decimalAux f n → 48 ≤ c.toNat ∧ c.toNat ≤ 57 := by
  intro f
  induction f with
  | zero => intro n c h; simp [decimalAux] at h
  | succ f ih =>
    intro n c h
    cases n with
    | zero => simp [decimalAux] at h
    | succ m =>
      simp only [decimalAux, List.mem_append, List.mem_singleton] at h
      rcases h with h | h
      · exact ih _ c h
      · subst h
        rw [digitCh_toNat _ (Nat.mod_lt _ (by omega))]
        omega

theorem splitAux_no_sep (h : Char) (stail : Str) :
    ∀ (t : Str) (acc : Str) (f : Nat), t.length ≤ f → (∀ c ∈ t, c ≠ h) →
      splitAux (h :: stail) f acc t = [acc ++ t] := by
  intro t
  induction t with
  | nil => intro acc f _ _; cases f <;> simp [splitAux]
  | cons c cs ih =>
    intro acc f hf hch
    cases f with
    | zero => simp at hf
    | succ f' =>
      have hc : c ≠ h := hch c (List.mem_cons_self c cs)
      have hpre : List.isPrefixOf (h :: stail) (c :: cs) = false := by
        simp [List.isPrefixOf]
        intro he
        exact absurd he.symm hc
      simp only [splitAux, hpre, Bool.false_eq_true, if_false]
      rw [ih (acc ++ [c]) f' (by simpa using hf)
        (fun x hx => hch x (List.mem_cons_of_mem c hx))]
      simp

theorem splitAux_sep_once (h : Char) (stail : Str) (t : Str) (hts : ∀ c ∈ t, c ≠ h) :
    ∀ (u : Str) (acc : Str) (f : Nat),
      (u ++ (h :: stail) ++ t).length ≤ f → (∀ c ∈ u, c ≠ h) →
      splitAux (h :: stail) f acc (u ++ (h :: stail) ++ t) = [acc ++ u, t] := by
  intro u
  induction u with
  | nil =>
    intro acc f hf _
    cases f with
    | zero => simp at hf
    | succ f' =>
      show splitAux (h :: stail) (f' + 1) acc (h :: (stail ++ t)) = [acc ++ [], t]
      have hpre : List.isPrefixOf (h :: stail) (h :: (stail ++ t)) = true :=
        isPrefixOf_append_self (h :: stail) t
      simp only [splitAux, hpre, if_true]
      have hdrop : List.drop (h :: stail).length (h :: (stail ++ t)) = t := by
        rw [List.length_cons, List.drop_succ_cons, List.drop_left]
      rw [hdrop, splitAux_no_sep h stail t [] f' (by simp at hf; omega) hts]
      simp
  | cons c cu ih =>
    intro acc f hf hcu
    have hc : c ≠ h := hcu c (List.mem_cons_self c cu)
    cases f with
    | zero => simp at hf
    | succ f' =>
      show splitAux (h :: stail) (f' + 1) acc (c :: (cu ++ (h :: stail) ++ t)) =
        [acc ++ c :: cu, t]
      have hpre : List.isPrefixOf (h :: stail) (c :: (cu ++ (h :: stail) ++ t)) = false := by
        simp [List.isPrefixOf]
        intro he
        exact absurd he.symm hc
      simp only [splitAux, hpre, Bool.false_eq_true, if_false]
      rw [ih (acc ++ [c]) f' (by simp at hf ⊢; omega)
        (fun x hx => hcu x (List.mem_cons_of_mem c hx))]
      simp

theorem foldl_parse_decimalAux :
    ∀ (f n a : Nat), n ≤ f →
      List.foldl (fun acc c => acc * 10 + (c.toNat - 48)) a (decimalAux f n) =
        a * 10 ^ (decimalAux f n).length + n := by
  intro f
  induction f with
  | zero => intro n a h; interval_cases n; simp [decimalAux]
  | succ f ih =>
    intro n a h
    cases n with
    | zero => simp [decimalAux]
    | succ m =>
      rw [show decimalAux (f + 1) (m + 1) =
        decimalAux f ((m + 1) / 10) ++ [digitCh ((m + 1) % 10)] from rfl]
      rw [List.foldl_append]
      have hdiv : (m + 1) / 10 ≤ f := by omega
      rw [ih _ a hdiv]
      simp only [List.foldl_cons, List.foldl_nil, List.length_append,
        List.length_cons, List.length_nil]
      rw [digitCh_toNat _ (Nat.mod_lt _ (by omega))]
      have : 48 + (m + 1) % 10 - 48 = (m + 1) % 10 := by omega
      rw [this]
      rw [pow_succ]
      have hmod := Nat.div_add_mod (m + 1) 10
      ring_nf
      omega
  
theorem parseNat_decimalStr (n : Nat) : parseNat (decimalStr n) = n := by
  by_cases h : n = 0
  · subst h; decide
  · rw [decimalStr, if_neg h]
    rw [parseNat, foldl_parse_decimalAux n n 0 (le_refl n)]
    simp

theorem decimalStr_digits (n : Nat) (c : Char) (h : c ∈ decimalStr n) :
    48 ≤ c.toNat ∧ c.toNat ≤ 57 := by
  rw [decimalStr] at h
  by_cases h0 : n = 0
  · rw [if_pos h0] at h
    simp at h
    subst h
    decide
  · rw [if_neg h0] at h
    exact decimalAux_digits n n c h

theorem intStr_natCast (pos : Nat) : intStr ((pos : Nat) : Int) = decimalStr pos := by
  rw [intStr, if_neg (by exact_mod_cast Int.not_lt.mpr (Int.natCast_nonneg pos))]
  simp

theorem extract_fileNameFor (name : Str) (hn : ∀ c ∈ name, c ≠ '_') (pos : Nat) :
    extract_block_index (fileNameFor name (pos : Int)) = pos := by
  have ht : ∀ c ∈ decimalStr pos ++ extPkl, c ≠ '_' := by
    intro c hc he
    rw [List.mem_append] at hc
    rcases hc with hc | hc
    · have hd := decimalStr_digits pos c hc
      rw [he, show ('_' : Char).toNat = 95 from rfl] at hd
      omega
    · rw [he] at hc
      simp [extPkl] at hc
  have hshape : fileNameFor name (pos : Int) =
      name ++ ('_' :: ['b', 'l', 'o', 'c', 'k', '_']) ++ (decimalStr pos ++ extPkl) := by
    rw [fileNameFor, intStr_natCast]
    simp [sepBlockU, List.append_assoc]
  have hsplit1 : pySplit (fileNameFor name (pos : Int)) sepBlockU =
      [name, decimalStr pos ++ extPkl] := by
    rw [pySplit, hshape]
    exact splitAux_sep_once '_' ['b', 'l', 'o', 'c', 'k', '_'] _ ht name [] _ (le_refl _) hn
  have hpkl : ∀ c ∈ (['p', 'k', 'l'] : Str), c ≠ '.' := by
    intro c hc
    simp at hc
    rcases hc with rfl | rfl | rfl <;> decide
  have hdig : ∀ c ∈ decimalStr pos, c ≠ '.' := by
    intro c hc he
    have hd := decimalStr_digits pos c hc
    rw [he, show ('.' : Char).toNat = 46 from rfl] at hd
    omega
  have hsplit2 : pySplit (decimalStr pos ++ extPkl) extDot =
      [decimalStr pos, ['p', 'k', 'l']] := by
    rw [pySplit]
    have hshape2 : decimalStr pos ++ extPkl =
        decimalStr pos ++ ('.' :: ([] : Str)) ++ (['p', 'k', 'l'] : Str) := by
      simp [extPkl, List.append_assoc]
    rw [hshape2]
    exact splitAux_sep_once '.' [] _ hpkl (decimalStr pos) [] _ (le_refl _) hdig
  rw [extract_block_index, hsplit1]
  rw [show (([name, decimalStr pos ++ extPkl] : List Str).getLastD []) =
    decimalStr pos ++ extPkl from rfl]
  rw [hsplit2]
  rw [show (([decimalStr pos, ['p', 'k', 'l']] : List Str).headD []) =
    decimalStr pos from rfl]
  exact parseNat_decimalStr pos

theorem insertBy_mem (lt : β → β → Bool) (x : β) :
    ∀ (l : List β) (z : β), z ∈ insertBy lt x l → z = x ∨ z ∈ l := by
  intro l
  induction l with
  | nil => intro z hz; simp [insertBy] at hz; exact Or.inl hz
  | cons y ys ih =>
    intro z hz
    simp only [insertBy] at hz
    by_cases hlt : lt y x
    · rw [if_pos hlt] at hz
      rcases List.mem_cons.mp hz with rfl | hz'
      · exact Or.inr (List.mem_cons_self _ _)
      · rcases ih z hz' with h | h
        · exact Or.inl h
        · exact Or.inr (List.mem_cons_of_mem _ h)
    · rw [if_neg hlt] at hz
      rcases List.mem_cons.mp hz with rfl | hz'
      · exact Or.inl rfl
      · exact Or.inr hz'

theorem insertBy_perm (lt : β → β → Bool) (x : β) :
    ∀ (l : List β), (insertBy lt x l).Perm (x :: l) := by
  intro l
  induction l with
  | nil => simp [insertBy]
  | cons y ys ih =>
    simp only [insertBy]
    by_cases hlt : lt y x
    · rw [if_pos hlt]
      exact List.Perm.trans (List.Perm.cons y ih) (List.Perm.swap x y ys)
    · rw [if_neg hlt]

theorem sortBy_perm (lt : β → β → Bool) : ∀ (l : List β), (sortBy lt l).Perm l := by
  intro l
  induction l with
  | nil => exact List.Perm.refl _
  | cons x xs ih =>
    exact List.Perm.trans (insertBy_perm lt x (sortBy lt xs)) (List.Perm.cons x ih)

theorem insertBy_sorted (lt : β → β → Bool)
    (hasymm : ∀ a b, lt a b = true → lt b a = false)
    (htrans : ∀ a b c, lt b a = false → lt c b = false → lt c a = false)
    (x : β) : ∀ (l : List β), l.Pairwise (fun a b => lt b a = false) →
      (insertBy lt x l).Pairwise (fun a b => lt b a = false) := by
  intro l
  induction l with
  | nil => intro _; simp [insertBy]
  | cons y ys ih =>
    intro hp
    rw [List.pairwise_cons] at hp
    obtain ⟨hy, hys⟩ := hp
    simp only [insertBy]
    by_cases hlt : lt y x
    · rw [if_pos hlt, List.pairwise_cons]
      refine ⟨?_, ih hys⟩
      intro z hz
      rcases insertBy_mem lt x ys z hz with rfl | hz'
      · exact hasymm y z hlt
      · exact hy z hz'
    · rw [if_neg hlt, List.pairwise_cons]
      refine ⟨?_, List.pairwise_cons.mpr ⟨hy, hys⟩⟩
      intro z hz
      rcases List.mem_cons.mp hz with rfl | hz'
      · exact Bool.eq_false_iff.mpr hlt
      · exact htrans x y z (Bool.eq_false_iff.mpr hlt) (hy z hz')

theorem sortBy_sorted (lt : β → β → Bool)
    (hasymm : ∀ a b, lt a b = true → lt b a = false)
    (htrans : ∀ a b c, lt b a = false → lt c b = false → lt c a = false) :
    ∀ (l : List β), (sortBy lt l).Pairwise (fun a b => lt b a = false) := by
  intro l
  induction l with
  | nil => simp [sortBy]
  | cons x xs ih => exact insertBy_sorted lt hasymm htrans x (sortBy lt xs) ih

theorem lookupA_eq_some_of_nodup_mem [DecidableEq κ] :
    ∀ (d : List (κ × β)), (d.map Prod.fst).Nodup → ∀ k v, (k, v) ∈ d →
      lookupA d k = some v := by
  intro d
  induction d with
  | nil => intro _ k v h; simp at h
  | cons e rest ih =>
    intro hnd k v h
    rw [List.map_cons, List.nodup_cons] at hnd
    rcases List.mem_cons.mp h with rfl | h'
    · simp [lookupA]
    · have hne : e.1 ≠ k := by
        intro he
        exact hnd.1 (he ▸ List.mem_map_of_mem Prod.fst h')
      simp only [lookupA, if_neg hne]
      exact ih hnd.2 k v h'

theorem lookupA_perm [DecidableEq κ] (d1 d2 : List (κ × β)) (hp : d1.Perm d2)
    (hnd : (d1.map Prod.fst).Nodup) (k : κ) : lookupA d1 k = lookupA d2 k := by
  have hnd2 : (d2.map Prod.fst).Nodup := (hp.map Prod.fst).nodup hnd
  cases h1 : lookupA d1 k with
  | some v =>
    exact (lookupA_eq_some_of_nodup_mem d2 hnd2 k v
      (hp.subset (lookupA_mem d1 k v h1))).symm
  | none =>
    cases h2 : lookupA d2 k with
    | none => rfl
    | some v =>
      have := lookupA_eq_some_of_nodup_mem d1 hnd k v
        (hp.symm.subset (lookupA_mem d2 k v h2))
      rw [h1] at this
      exact absurd this (by simp)

theorem updateA_append_of_not_mem [DecidableEq κ] (k : κ) (v : β) :
    ∀ d : List (κ × β), (∀ e ∈ d, e.1 ≠ k) → updateA d k v = d ++ [(k, v)] := by
  intro d
  induction d with
  | nil => intro _; rfl
  | cons e rest ih =>
    intro h
    simp only [updateA, if_neg (h e (List.mem_cons_self _ _))]
    rw [ih (fun e' he' => h e' (List.mem_cons_of_mem _ he'))]
    rfl

theorem saveAll_eq_map (name : Str) :
    ∀ (chain : List (Block α)) (d : List (Str × Block α)),
      List.Pairwise (fun a b : Block α =>
        fileNameFor name a.index ≠ fileNameFor name b.index) chain →
      (∀ b ∈ chain, ∀ e ∈ d, e.1 ≠ fileNameFor name b.index) →
      chain.foldl (fun d b => updateA d (fileNameFor name b.index) b) d =
        d ++ chain.map (fun b => (fileNameFor name b.index, b)) := by
  intro chain
  induction chain with
  | nil => intro d _ _; simp
  | cons b rest ih =>
    intro d hpw hd
    rw [List.pairwise_cons] at hpw
    simp only [List.foldl_cons]
    rw [updateA_append_of_not_mem _ _ d (fun e he => hd b (List.mem_cons_self _ _) e he)]
    rw [ih (d ++ [(fileNameFor name b.index, b)]) hpw.2 ?_]
    · simp
    · intro b' hb' e he
      rcases List.mem_append.mp he with he | he
      · exact hd b' (List.mem_cons_of_mem _ hb') e he
      · simp only [List.mem_singleton] at he
        rw [he]
        exact hpw.1 b' hb'

theorem verify_full_of_chain' (render : List α → Str) :
    ∀ (l : List (Block α)), List.Chain' (fun a b => check_validity render b a = true) l →
      verify_full render l = true := by
  intro l
  induction l with
  | nil => intro _; rfl
  | cons a t ih =>
    intro h
    cases t with
    | nil => rfl
    | cons b t' =>
      rw [List.chain'_cons] at h
      simp only [verify_full]
      rw [h.1, ih h.2]
      rfl

theorem loadLoop_ok (render : List α → Str) (dir : List (Str × Block α)) (name : Str) :
    ∀ (bs : List (Block α)) (chain0 : List (Block α)) (ci0 : List (Int × Str)),
      (∀ b ∈ bs, lookupA dir (fileNameFor name b.index) = some b) →
      List.Chain' (fun a b => check_validity render b a = true) (chain0 ++ bs) →
      ∃ ci', loadLoop render dir (bs.map (fun b => fileNameFor name b.index)) (chain0, ci0) =
        some (chain0 ++ bs, ci') := by
  intro bs
  induction bs with
  | nil => intro chain0 ci0 _ _; exact ⟨ci0, by simp [loadLoop]⟩
  | cons b rest ih =>
    intro chain0 ci0 hlk hch
    have hb := hlk b (List.mem_cons_self _ _)
    have hch' : List.Chain' (fun a b => check_validity render b a = true)
        ((chain0 ++ [b]) ++ rest) := by
      rw [List.append_assoc]
      exact hch
    have hlk' : ∀ b' ∈ rest, lookupA dir (fileNameFor name b'.index) = some b' :=
      fun b' hb' => hlk b' (List.mem_cons_of_mem _ hb')
    obtain ⟨ci', hci⟩ := ih (chain0 ++ [b]) (updateA ci0 b.index (fileNameFor name b.index))
      hlk' hch'
    refine ⟨ci', ?_⟩
    simp only [List.map_cons, loadLoop, hb]
    by_cases hc0 : chain0.isEmpty
    · rw [if_pos hc0]
      rw [hci, List.append_assoc]
      rfl
    · rw [if_neg hc0]
      have hne : chain0 ≠ [] := by
        intro h; rw [h] at hc0; exact hc0 rfl
      have hgl0 : chain0.getLast? =
          some (chain0.getD (chain0.length - 1) defaultBlock) :=
        getLast?_eq_getD defaultBlock chain0 hne
      obtain ⟨hch1, hch2, hlink⟩ := List.chain'_append.mp hch
      have hcv : check_validity render b (chain0.getLastD defaultBlock) = true := by
        have hl := hlink (chain0.getD (chain0.length - 1) defaultBlock)
          (by rw [hgl0]; rfl) b (by simp)
        rw [List.getLastD_eq_getLast?, hgl0]
        exact hl
      rw [if_pos hcv]
      rw [hci, List.append_assoc]
      rfl

theorem getD_eq_get (l : List β) (d : β) :
    ∀ (i : Nat) (h : i < l.length), l.getD i d = l.get ⟨i, h⟩ := by
  induction l with
  | nil => intro i h; simp at h
  | cons a t ih =>
    intro i h
    cases i with
    | zero => rfl
    | succ j => exact ih j (by simpa using h)

theorem pairwise_of_getD {R : β → β → Prop} (d : β) (l : List β)
    (h : ∀ i j, i < j → j < l.length → R (l.getD i d) (l.getD j d)) : l.Pairwise R := by
  rw [List.pairwise_iff_get]
  intro i j hij
  have := h i j hij j.2
  rwa [getD_eq_get l d i.1 i.2, getD_eq_get l d j.1 j.2] at this

theorem fileNameFor_has_name_pre (name : Str) (i : Int) :
    List.isPrefixOf (name ++ sepBlockU) (fileNameFor name i) = true := by
  rw [fileNameFor]
  rw [show name ++ sepBlockU ++ intStr i ++ extPkl =
    (name ++ sepBlockU) ++ (intStr i ++ extPkl) by simp [List.append_assoc]]
  exact isPrefixOf_append_self _ _

/-- Claim C2 (amended): reloading a persisted chain through `main.py`'s
`load_chain` — which orders the storage units by the index embedded in
their names — reproduces the identical block sequence for every chain
length and every directory-listing order (`dirp` is any permutation of
the persisted store). -/
theorem load_chain_idx_roundtrip (render : List α → Str)
    (sd name : Str) (hn : ∀ c ∈ name, c ≠ '_')
    (chain : List (Block α)) (hne : chain ≠ [])
    (hidx : ∀ i, i < chain.length → (chain.getD i defaultBlock).index = (i : Int))
    (hval : List.Chain' (fun a b => check_validity render b a = true) chain)
    (now : Nat) (dirp : List (Str × Block α))
    (hperm : dirp.Perm (saveAll name chain)) :
    Option.map (fun st => st.chain) (load_chain_idx render sd name now dirp) = some chain := by
  -- keys embedded in the canonical storage-unit names
  have hkey : ∀ i, i < chain.length →
      extract_block_index (fileNameFor name (chain.getD i defaultBlock).index) = i := by
    intro i h
    rw [hidx i h]
    exact extract_fileNameFor name hn i
  -- the chain is strictly increasing in embedded key
  have hpw_chain : List.Pairwise (fun a b : Block α =>
      extract_block_index (fileNameFor name a.index) <
        extract_block_index (fileNameFor name b.index)) chain := by
    apply pairwise_of_getD defaultBlock
    intro i j hij hj
    rw [hkey i (by omega), hkey j hj]
    exact hij
  have hpw_ne : List.Pairwise (fun a b : Block α =>
      fileNameFor name a.index ≠ fileNameFor name b.index) chain := by
    refine hpw_chain.imp ?_
    intro a b hab heq
    rw [heq] at hab
    omega
  have hsave : saveAll name chain =
      chain.map (fun b => (fileNameFor name b.index, b)) := by
    have := saveAll_eq_map name chain [] hpw_ne (by intro b _ e he; simp at he)
    simpa [saveAll] using this
  -- canonical file names
  have hpnames : (dirp.map Prod.fst).Perm
      (chain.map (fun b => fileNameFor name b.index)) := by
    have h1 := hperm.map Prod.fst
    rw [hsave, List.map_map] at h1
    exact h1
  have hcs : List.Pairwise (fun a b : Str =>
      extract_block_index a < extract_block_index b)
      (chain.map (fun b => fileNameFor name b.index)) := by
    rw [List.pairwise_map]
    exact hpw_chain
  -- every listed name passes the startswith filter
  have hfilter : (dirp.map Prod.fst).filter
      (fun f => List.isPrefixOf (name ++ sepBlockU) f) = dirp.map Prod.fst := by
    apply List.filter_eq_self.mpr
    intro f hf
    have : f ∈ chain.map (fun b => fileNameFor name b.index) := hpnames.subset hf
    obtain ⟨b, _, rfl⟩ := List.mem_map.mp this
    exact fileNameFor_has_name_pre name b.index
  -- sorting by embedded key recovers the canonical order
  have hasymm : ∀ a b : Str,
      (decide (extract_block_index a < extract_block_index b)) = true →
      (decide (extract_block_index b < extract_block_index a)) = false := by
    intro a b h
    simp at h ⊢
    omega
  have htrans : ∀ a b c : Str,
      (decide (extract_block_index b < extract_block_index a)) = false →
      (decide (extract_block_index c < extract_block_index b)) = false →
      (decide (extract_block_index c < extract_block_index a)) = false := by
    intro a b c h1 h2
    simp at h1 h2 ⊢
    omega
  have hsortperm : (sortBy
      (fun a b => decide (extract_block_index a < extract_block_index b))
      (dirp.map Prod.fst)).Perm (chain.map (fun b => fileNameFor name b.index)) :=
    (sortBy_perm _ _).trans hpnames
  have hnd_keys : ((chain.map (fun b => fileNameFor name b.index)).map
      extract_block_index).Nodup := by
    have h1 : ((chain.map (fun b => fileNameFor name b.index)).map
        extract_block_index).Pairwise (· < ·) := List.pairwise_map.mpr hcs
    exact h1.imp Nat.ne_of_lt
  have hsorted_le : (sortBy
      (fun a b => decide (extract_block_index a < extract_block_index b))
      (dirp.map Prod.fst)).Pairwise (fun a b =>
        (decide (extract_block_index b < extract_block_index a)) = false) :=
    sortBy_sorted _ hasymm htrans _
  have hnd_sorted : ((sortBy
      (fun a b => decide (extract_block_index a < extract_block_index b))
      (dirp.map Prod.fst)).map extract_block_index).Nodup :=
    ((hsortperm.map extract_block_index).nodup_iff).mpr hnd_keys
  have hpw_ne_sorted : (sortBy
      (fun a b => decide (extract_block_index a < extract_block_index b))
      (dirp.map Prod.fst)).Pairwise (fun a b =>
        extract_block_index a ≠ extract_block_index b) :=
    List.pairwise_map.mp hnd_sorted
  have hsorted_lt : (sortBy
      (fun a b => decide (extract_block_index a < extract_block_index b))
      (dirp.map Prod.fst)).Pairwise (fun a b : Str =>
        extract_block_index a < extract_block_index b) := by
    refine (hsorted_le.and hpw_ne_sorted).imp ?_
    intro a b hab
    have h1 := hab.1
    have h2 := hab.2
    simp at h1
    omega
  haveI : IsAntisymm Str (fun a b : Str =>
      extract_block_index a < extract_block_index b) :=
    ⟨by intro a b h1 h2; omega⟩
  have hsd : sortBy
      (fun a b => decide (extract_block_index a < extract_block_index b))
      (dirp.map Prod.fst) = chain.map (fun b => fileNameFor name b.index) :=
    List.eq_of_perm_of_sorted hsortperm hsorted_lt hcs
  have hnd_cnames : (chain.map (fun b => fileNameFor name b.index)).Nodup := by
    have h2 : (chain.map (fun b => fileNameFor name b.index)).Pairwise
        (fun a b => a ≠ b) := by
      refine hcs.imp ?_
      intro a b h heq
      rw [heq] at h
      omega
    exact h2
  have hnd_dirkeys : (dirp.map Prod.fst).Nodup := (hpnames.nodup_iff).mpr hnd_cnames
  have hlkup : ∀ b ∈ chain, lookupA dirp (fileNameFor name b.index) = some b := by
    intro b hb
    rw [lookupA_perm dirp (saveAll name chain) hperm hnd_dirkeys]
    rw [hsave]
    apply lookupA_eq_some_of_nodup_mem
    · simpa [List.map_map, Function.comp] using hnd_cnames
    · exact List.mem_map_of_mem _ hb
  obtain ⟨ci', hci⟩ := loadLoop_ok render dirp name chain [] [] hlkup (by simpa using hval)
  have hbf : sortBy (fun a b => decide (extract_block_index a < extract_block_index b))
      ((dirp.map Prod.fst).filter (fun f => List.isPrefixOf (name ++ sepBlockU) f)) =
      chain.map (fun b => fileNameFor name b.index) := by
    rw [hfilter]
    exact hsd
  have hie : chain.isEmpty = false := by
    cases chain with
    | nil => exact absurd rfl hne
    | cons a t => rfl
  simp only [load_chain_idx, hbf, hci, List.nil_append, hie, Bool.false_eq_true,
    if_false, verify_full_of_chain' render chain hval, if_true, Option.map_some']

/-- A one-block chain for the C2 witness. -/
def chain1W : List (Block FileRec) := [⟨0, 0, zeroStr, [], 0⟩]

/-- Witness for C2: a persisted single-genesis chain round-trips through
the index-ordered load. -/
theorem load_chain_idx_roundtrip_witness :
    Option.map (fun st => st.chain)
      (load_chain_idx renderFile sdFileB nmDefault 0 (saveAll nmDefault chain1W)) =
      some chain1W :=
  load_chain_idx_roundtrip renderFile sdFileB nmDefault (by decide) chain1W (by decide)
    (by
      intro i hi
      simp only [chain1W, List.length_cons, List.length_nil] at hi
      have h0 : i = 0 := by omega
      subst h0
      decide)
    (by simp [chain1W])
    0 (saveAll nmDefault chain1W) (List.Perm.refl _)

